import Mathlib

/-!
# nt: a network tee (`nt.go`)

A shallow embedding of `nt.go`:

* `NetTee` (lines 31-103) as an interleaving step function over an explicit
  state: one engine flow (listen, dial, accept, spawn, `<-pool`, loop test,
  `wg.Wait`, `return err`) and one flow per relay goroutine (the two copy
  goroutines, `wgCopy.Wait`, `pool <- true`, `wg.Done`, the two deferred
  `Close` calls).  Every outcome the environment decides (whether a dial or an
  accept succeeds, when a copy ends, which flow runs next) is an `Event`.
* the two copy directions of a relay (lines 75-86), `io.Copy` over an
  `io.TeeReader`, as pure functions over scripted readers and writers.
* the connection-specification handling of `main` (lines 105-126).
-/

namespace NT

/-! ## Go values -/

/-- Go error values the program can meet; a nil error is `none` of `GoErr`. -/
inductive GoError where
  | EOF
  | ErrShortWrite
  | errInvalidWrite
  | other (code : Nat)
deriving DecidableEq, Repr

/-- The Go type `error`: `none` is nil. -/
abbrev GoErr := Option GoError

/-- The package-level flags read by `NetTee` (lines 15-16): `-k` and `-n`. -/
structure Flags where
  keepListening : Bool
  maxConcurrentConnections : Nat
deriving DecidableEq, Repr

/-! ## NetTee: state -/

/-- A `net.Conn` handle; only whether this program has called `Close` on it is
tracked. -/
structure Conn where
  closed : Bool
deriving DecidableEq, Repr

/-- Program counter of a relay goroutine (lines 67-91). -/
inductive RelayPc where
  /-- Both copy goroutines started, at `wgCopy.Wait()` (line 88). -/
  | wgCopyWait
  /-- At `pool <- true` (line 89). -/
  | poolSend
  /-- At `wg.Done()` (line 90). -/
  | wgDone
  /-- Function body finished, at the deferred `conn.Close()` (line 71). -/
  | connClose
  /-- At the deferred `remote.Close()` (line 70). -/
  | remoteClose
  /-- Goroutine finished. -/
  | exited
deriving DecidableEq, Repr

/-- One relay goroutine: its program counter, whether each of its two copy
goroutines has returned from `io.Copy` and called `wgCopy.Done()`, and its two
captured connections. -/
structure Relay where
  pc : RelayPc
  fwdDone : Bool
  revDone : Bool
  conn : Conn
  remote : Conn
deriving DecidableEq, Repr

/-- Program counter of the flow running `NetTee` itself. -/
inductive Pc where
  /-- At `net.Listen` (line 40). -/
  | listen
  /-- Top of the loop, at `net.Dial` (line 54). -/
  | dial
  /-- At `server.Accept()` (line 59). -/
  | accept
  /-- Relay spawned, at `<-pool` (line 93). -/
  | poolRecv
  /-- Loop left, at `wg.Wait()` (line 100). -/
  | wgWait
  /-- Returned through `return err` of line 102. -/
  | returned
  /-- Returned through `return err` of line 42 (the listener did not bind). -/
  | returnedListen
deriving DecidableEq, Repr

/-- The state of one run of `NetTee`. -/
structure State where
  pc : Pc
  /-- The function-scope variable `err` of lines 38 and 40. -/
  err : GoErr
  /-- The loop body's `remote` while the engine still owns it (between the dial
  and the spawn, or after a failed accept). -/
  remote : Option Conn
  /-- Number of values buffered in the channel `pool`. -/
  pool : Nat
  /-- Counter of the wait group `wg`. -/
  wg : Nat
  /-- The relay goroutines spawned so far, in spawn order. -/
  relays : List Relay
  /-- Whether the deferred `server.Close()` has run. -/
  serverClosed : Bool
  /-- The value returned to the caller, once returned. -/
  result : Option GoErr
deriving DecidableEq, Repr

/-- What happens next: an outcome decided by the environment or the scheduler. -/
inductive Event where
  | listenOk
  | listenFail (e : GoError)
  | dialOk
  | dialFail (e : GoError)
  | acceptOk
  | acceptFail (e : GoError)
  /-- The engine receives a buffered value from `pool`. -/
  | poolRecv
  /-- On an unbuffered `pool`, relay `i`'s send meets the engine's receive. -/
  | handoff (i : Nat)
  /-- `wg.Wait()` returns and `NetTee` returns. -/
  | wgWait
  /-- Relay `i`'s forward copy goroutine finishes (lines 77-80). -/
  | fwdDone (i : Nat)
  /-- Relay `i`'s reverse copy goroutine finishes (lines 83-86). -/
  | revDone (i : Nat)
  | wgCopyWait (i : Nat)
  /-- Relay `i` sends into the buffer of `pool`. -/
  | poolSend (i : Nat)
  | wgDone (i : Nat)
  | connClose (i : Nat)
  | remoteClose (i : Nat)
deriving DecidableEq, Repr

/-- A relay that has been spawned and has not yet finished both copy tasks. -/
def Relay.midCopy (r : Relay) : Bool :=
  r.pc == .wgCopyWait && !(r.fwdDone && r.revDone)

/-- A relay that has been spawned and has not yet sent its value back to
`pool`. -/
def Relay.unreleased (r : Relay) : Bool :=
  r.pc == .wgCopyWait || r.pc == .poolSend

/-- A relay that has not yet called `wg.Done()`. -/
def Relay.running (r : Relay) : Bool :=
  r.pc == .wgCopyWait || r.pc == .poolSend || r.pc == .wgDone

/-- Events in which the engine completes its receive from `pool` (line 93). -/
def Event.isAcquire : Event → Bool
  | .poolRecv => true
  | .handoff _ => true
  | _ => false

/-- Events that are a step of a relay goroutine alone. -/
def Event.isRelayOnly : Event → Bool
  | .fwdDone _ => true
  | .revDone _ => true
  | .wgCopyWait _ => true
  | .poolSend _ => true
  | .wgDone _ => true
  | .connClose _ => true
  | .remoteClose _ => true
  | _ => false

namespace NetTee

/-- State on entry to `NetTee`. -/
def init : State :=
  { pc := .listen, err := none, remote := none, pool := 0, wg := 0, relays := [],
    serverClosed := false, result := none }

/-- The loop test of lines 95-97, taken after `<-pool`: `break` when
`*keepListening == false && *maxConcurrentConnections < 1`, else loop. -/
def afterRecv (f : Flags) : Pc :=
  if f.keepListening == false && decide (f.maxConcurrentConnections < 1) then .wgWait else .dial

/-- Run one step `g` of relay `i`. -/
def relayStep (s : State) (i : Nat) (g : Relay → Option Relay) : Option State :=
  match s.relays[i]? with
  | none => none
  | some r =>
    match g r with
    | none => none
    | some r' => some { s with relays := s.relays.set i r' }

/-- The relay goroutine as spawned at line 67 for the pair `conn`, `remote`. -/
def spawn (conn remote : Conn) : Relay :=
  { pc := .wgCopyWait, fwdDone := false, revDone := false, conn := conn, remote := remote }

/-- One step of a run of `NetTee`; `none` when the event is not enabled. -/
def step (f : Flags) (s : State) : Event → Option State
  -- lines 40-49: `server, err := net.Listen(..)` assigns the function-scope
  -- `err`; the channel of capacity `-n` is filled with that many values.
  | .listenOk =>
    if s.pc = .listen then
      some { s with pc := .dial, err := none, pool := f.maxConcurrentConnections }
    else none
  -- lines 41-43
  | .listenFail e =>
    if s.pc = .listen then
      some { s with pc := .returnedListen, err := some e, result := some (some e) }
    else none
  -- line 54: `remote, err := net.Dial(..)` declares a new `remote` and a new
  -- `err` in the loop body; the function-scope `err` is not assigned.
  | .dialOk =>
    if s.pc = .dial then some { s with pc := .accept, remote := some ⟨false⟩ } else none
  -- lines 55-57: `break`; the error stays in the loop body's `err`.
  | .dialFail _ =>
    if s.pc = .dial then some { s with pc := .wgWait, remote := none } else none
  -- lines 59, 65-91: `conn, err := server.Accept()` assigns the loop body's
  -- `err`; then `wg.Add(1)` and the relay goroutine is started.
  | .acceptOk =>
    match s.pc, s.remote with
    | .accept, some r =>
      some { s with pc := .poolRecv, remote := none, wg := s.wg + 1,
                    relays := s.relays ++ [spawn ⟨false⟩ r] }
    | _, _ => none
  -- lines 60-63: `remote.Close()`, `break`; the error stays in the loop body's
  -- `err`.
  | .acceptFail _ =>
    match s.pc, s.remote with
    | .accept, some _ => some { s with pc := .wgWait, remote := some ⟨true⟩ }
    | _, _ => none
  -- line 93 on a buffered channel, then the loop test of lines 95-97
  | .poolRecv =>
    if s.pc = .poolRecv ∧ 0 < s.pool then
      some { s with pc := afterRecv f, pool := s.pool - 1 }
    else none
  -- lines 89 and 93 on an unbuffered channel: sender and receiver meet
  | .handoff i =>
    if s.pc = .poolRecv ∧ f.maxConcurrentConnections = 0 then
      relayStep { s with pc := afterRecv f } i fun r =>
        if r.pc = .poolSend then some { r with pc := .wgDone } else none
    else none
  -- lines 100-102, and the deferred `server.Close()` of line 44
  | .wgWait =>
    if s.pc = .wgWait ∧ s.wg = 0 then
      some { s with pc := .returned, result := some s.err, serverClosed := true }
    else none
  -- lines 78-79
  | .fwdDone i =>
    relayStep s i fun r =>
      if r.pc = .wgCopyWait ∧ r.fwdDone = false then some { r with fwdDone := true } else none
  -- lines 84-85
  | .revDone i =>
    relayStep s i fun r =>
      if r.pc = .wgCopyWait ∧ r.revDone = false then some { r with revDone := true } else none
  -- line 88
  | .wgCopyWait i =>
    relayStep s i fun r =>
      if r.pc = .wgCopyWait ∧ r.fwdDone = true ∧ r.revDone = true then
        some { r with pc := .poolSend }
      else none
  -- line 89 on a buffered channel with a free slot
  | .poolSend i =>
    if s.pool < f.maxConcurrentConnections then
      relayStep { s with pool := s.pool + 1 } i fun r =>
        if r.pc = .poolSend then some { r with pc := .wgDone } else none
    else none
  -- line 90
  | .wgDone i =>
    relayStep { s with wg := s.wg - 1 } i fun r =>
      if r.pc = .wgDone then some { r with pc := .connClose } else none
  -- line 71, deferred
  | .connClose i =>
    relayStep s i fun r =>
      if r.pc = .connClose then some { r with pc := .remoteClose, conn := ⟨true⟩ } else none
  -- line 70, deferred
  | .remoteClose i =>
    relayStep s i fun r =>
      if r.pc = .remoteClose then some { r with pc := .exited, remote := ⟨true⟩ } else none

/-- Run a sequence of events from `s`; `none` if one of them is not enabled. -/
def run (f : Flags) (s : State) : List Event → Option State
  | [] => some s
  | e :: es =>
    match step f s e with
    | none => none
    | some s' => run f s' es

/-- The states a run of `NetTee` under flags `f` can be in. -/
def Reachable (f : Flags) (s : State) : Prop :=
  ∃ evs : List Event, run f init evs = some s

/-- One while the engine has spawned a relay and not yet completed the receive
from `pool` that follows (line 93), else zero. -/
def owed (s : State) : Nat :=
  if s.pc = .poolRecv then 1 else 0

/-- Steps a relay goroutine still has to take before it has called `wg.Done()`. -/
def remaining (r : Relay) : Nat :=
  match r.pc with
  | .wgCopyWait => (if r.fwdDone then 0 else 1) + (if r.revDone then 0 else 1) + 3
  | .poolSend => 2
  | .wgDone => 1
  | _ => 0

/-- The state at the top of the loop after `j` relays have been spawned and
admitted and none of them has finished a copy (capacity `n`). -/
def admitted (n j : Nat) : State :=
  { pc := .dial, err := none, remote := none, pool := n - j, wg := j,
    relays := List.replicate j (spawn ⟨false⟩ ⟨false⟩), serverClosed := false, result := none }

/-- Whether the engine has left the accept loop of lines 53-98. -/
def loopExited (s : State) : Bool :=
  s.pc == .wgWait || s.pc == .returned

/-- Number of receives from `pool` (line 93) completed along a run. -/
def acquires (evs : List Event) : Nat :=
  evs.countP Event.isAcquire

/-- Number of successful dials (line 54) along a run. -/
def dialsOk (evs : List Event) : Nat :=
  evs.countP (· == .dialOk)

/-- Number of successful accepts (line 59) along a run. -/
def acceptsOk (evs : List Event) : Nat :=
  evs.countP (· == .acceptOk)

/-- Number of failed accepts (line 59) along a run. -/
def acceptsFailed (evs : List Event) : Nat :=
  evs.countP fun e => match e with
    | .acceptFail _ => true
    | _ => false

/-- The bookkeeping invariant of `NetTee`: before the listener is bound there
are no relays; afterwards the values buffered in `pool` plus the relays that
have not sent theirs back make the capacity, plus one while a receive is owed;
and `wg` counts the relays that have not called `wg.Done()`. -/
structure Inv (f : Flags) (s : State) : Prop where
  fresh : s.pc = .listen ∨ s.pc = .returnedListen → s.relays = []
  tokens : s.pc ≠ .listen → s.pc ≠ .returnedListen →
    s.pool + s.relays.countP Relay.unreleased = f.maxConcurrentConnections + owed s
  wg : s.wg = s.relays.countP Relay.running

/-- What a run keeps true of the events it has gone through: every spawned
relay has had its receive from `pool` done, except the one owed; relays are
spawned by successful accepts only; every successful dial is followed by
exactly one accept, or is the one the engine is waiting on; the connection held
at the accept is open; the function-scope `err` is nil once the listener is
bound; and so is the value returned through line 102. -/
structure TraceInv (evs : List Event) (s : State) : Prop where
  acq : acquires evs + owed s = s.relays.length
  spawned : s.relays.length = acceptsOk evs
  paired : acceptsOk evs + acceptsFailed evs + (if s.pc = .accept then 1 else 0) = dialsOk evs
  held : s.pc = .accept → s.remote = some ⟨false⟩
  errNil : s.pc ≠ .listen → s.pc ≠ .returnedListen → s.err = none
  retNil : s.pc = .returned → s.result = some none

end NetTee

/-! ## The copy tasks: readers, writers, `io.TeeReader`, `io.Copy`

`net.Conn` values and the two sinks are seen by the copy tasks through `Read`
and `Write` only.  What each call returns is decided by the peer, so a reader
is the list of results its `Read` calls will return and a writer records what
it has been given along with the outcomes its `Write` calls will have. -/

/-- A byte. -/
abbrev Byte := Nat

/-- What one `Read(p)` call returns: the bytes put into `p[:n]` and the error. -/
structure ReadResult where
  data : List Byte
  err : GoErr
deriving DecidableEq, Repr

/-- A reader: the results of its coming `Read` calls, after which every `Read`
returns `0, io.EOF`. -/
structure Reader where
  script : List ReadResult
deriving DecidableEq, Repr

/-- What one `Write(p)` call does. -/
inductive WriteOutcome where
  /-- Takes all of `p` and returns `len(p), nil`. -/
  | ok
  /-- Takes the first `n` bytes of `p` (all of it if shorter) and returns that
  count with `err`. -/
  | fail (n : Nat) (err : GoErr)
deriving DecidableEq, Repr

/-- A writer: the bytes written to it so far, and the outcomes of its coming
`Write` calls, after which every `Write` succeeds in full. -/
structure Writer where
  written : List Byte
  script : List WriteOutcome
deriving DecidableEq, Repr

/-- One call `n, err = r.Read(p)`. -/
def Reader.Read (r : Reader) : ReadResult × Reader :=
  match r.script with
  | [] => (⟨[], some .EOF⟩, r)
  | x :: rest => (x, ⟨rest⟩)

/-- One call `n, err = w.Write(p)`. -/
def Writer.Write (w : Writer) (p : List Byte) : (Nat × GoErr) × Writer :=
  match w.script with
  | [] => ((p.length, none), { w with written := w.written ++ p })
  | .ok :: rest => ((p.length, none), ⟨w.written ++ p, rest⟩)
  | .fail n err :: rest => ((min n p.length, err), ⟨w.written ++ p.take n, rest⟩)

/-- A writer all of whose coming writes succeed in full. -/
def Writer.reliable (w : Writer) : Prop :=
  ∀ o ∈ w.script, o = WriteOutcome.ok

instance (w : Writer) : Decidable w.reliable := by
  unfold Writer.reliable; infer_instance

/-- The value `io.TeeReader(r, w)`. -/
structure teeReader where
  r : Reader
  w : Writer
deriving DecidableEq, Repr

/-- `io.TeeReader`. -/
def TeeReader (r : Reader) (w : Writer) : teeReader := ⟨r, w⟩

/-- The method `(*teeReader).Read` of package `io`:
```
n, err = t.r.Read(p)
if n > 0 {
    if n, err := t.w.Write(p[:n]); err != nil {
        return n, err
    }
}
return
```
-/
def teeReader.Read (t : teeReader) : ReadResult × teeReader :=
  match t.r.Read with
  | (res, r') =>
    if 0 < res.data.length then
      match t.w.Write res.data with
      | ((n, err), w') =>
        if err ≠ none then (⟨res.data.take n, err⟩, ⟨r', w'⟩)
        else (res, ⟨r', w'⟩)
    else (res, ⟨r', t.w⟩)

/-- What `io.Copy` leaves behind: its two results and the writer and reader it
worked on. -/
structure CopyResult where
  written : Nat
  err : GoErr
  dst : Writer
  src : teeReader
deriving DecidableEq, Repr

/-- The loop of `io.Copy` (`copyBuffer` of package `io`), at most `fuel` turns:
```
for {
    nr, er := src.Read(buf)
    if nr > 0 {
        nw, ew := dst.Write(buf[0:nr])
        if nw < 0 || nr < nw {
            nw = 0
            if ew == nil { ew = errInvalidWrite }
        }
        written += int64(nw)
        if ew != nil { err = ew; break }
        if nr != nw { err = ErrShortWrite; break }
    }
    if er != nil {
        if er != EOF { err = er }
        break
    }
}
return written, err
```
A tee reader has no `WriteTo`, and the `ReadFrom` of a TCP connection falls back
to this loop for a source that is neither a file nor a connection. -/
def copyLoop : Nat → Writer → teeReader → Nat → Option CopyResult
  | 0, _, _, _ => none
  | fuel + 1, dst, src, written =>
    match src.Read with
    | (res, src') =>
      let nr := res.data.length
      let er := res.err
      if 0 < nr then
        match dst.Write res.data with
        | ((nw0, ew0), dst') =>
          let nw := if nr < nw0 then 0 else nw0
          let ew := if nr < nw0 ∧ ew0 = none then some GoError.errInvalidWrite else ew0
          let written := written + nw
          if ew ≠ none then some ⟨written, ew, dst', src'⟩
          else if nr ≠ nw then some ⟨written, some .ErrShortWrite, dst', src'⟩
          else if er ≠ none then
            some ⟨written, if er ≠ some .EOF then er else none, dst', src'⟩
          else copyLoop fuel dst' src' written
      else if er ≠ none then
        some ⟨written, if er ≠ some .EOF then er else none, dst, src'⟩
      else copyLoop fuel dst src' written

/-- The call `io.Copy(dst, src)`: the loop runs until the source reports an
error or a write fails, which it does within one turn more than the source has
results to give. -/
def Copy (dst : Writer) (src : teeReader) : Option CopyResult :=
  copyLoop (src.r.script.length + 1) dst src 0

/-- The forward copy task of a relay (lines 75-80):
`out := io.TeeReader(conn, sendWriter); io.Copy(remote, out)`. -/
def forwardCopy (conn : Reader) (remote : Writer) (sendWriter : Writer) : Option CopyResult :=
  Copy remote (TeeReader conn sendWriter)

/-- The reverse copy task of a relay (lines 81-86):
`in := io.TeeReader(remote, recvWriter); io.Copy(conn, in)`. -/
def reverseCopy (remote : Reader) (conn : Writer) (recvWriter : Writer) : Option CopyResult :=
  Copy conn (TeeReader remote recvWriter)

/-! ## `main`: the connection specification (lines 105-126) -/

/-- A Go string. -/
abbrev GoString := List Char

/-- The call `strings.Split(s, ":")`: the pieces of `s` between its colons, in
order; one more piece than there are colons. -/
def Split : GoString → List GoString
  | [] => [[]]
  | c :: cs =>
    if c = ':' then [] :: Split cs
    else
      match Split cs with
      | [] => [[c]]
      | p :: ps => (c :: p) :: ps

/-- The call `strings.Join(a, ":")`. -/
def Join : List GoString → GoString
  | [] => []
  | [a] => a
  | a :: b :: rest => a ++ ':' :: Join (b :: rest)

/-- Where a log goes: `os.Stdout` or a file opened by name. -/
inductive LogFile where
  | stdout
  | file (name : GoString)
deriving DecidableEq, Repr

/-- What `main` does that can be seen from outside, in order. -/
inductive Action where
  /-- The call `usage()`. -/
  | usage
  /-- The message `Bad connection specification '%s'` with its argument. -/
  | badSpec (arg : GoString)
  /-- The call `os.OpenFile(name, logMode, 0666)`; `append` tells `O_APPEND` from
  `O_TRUNC`. -/
  | openFile (name : GoString) (append : Bool)
  /-- An error printed to standard error. -/
  | printErr
  /-- The call `NetTee(bindAddress, hostAddress, sendLog, recvLog)`. -/
  | netTee (bindAddress hostAddress : GoString) (sendLog recvLog : LogFile)
  /-- The call `os.Exit(code)`. -/
  | exit (code : Nat)
  /-- An index out of range. -/
  | indexPanic
deriving DecidableEq, Repr

/-- Lines 113-126 of `main`: the two addresses computed from the connection
specification, or `none` when it is rejected (the `default` case). -/
def addresses (spec : GoString) : Option (GoString × GoString) :=
  let addressParts := Split spec
  let addressParts? : Option (List GoString) :=
    match addressParts.length with
    | 3 => some ([] :: addressParts)
    | 4 => some addressParts
    | _ => none
  match addressParts? with
  | none => none
  | some addressParts => some (Join (addressParts.take 2), Join (addressParts.drop 2))

/-- The function `main`, given `*useAppend`, `os.Args`, `flag.Args()`, which
files open, and what `NetTee` returns. -/
def main (useAppend : Bool) (osArgs args : List GoString) (opens : GoString → Bool)
    (netTee : GoString → GoString → GoErr) : List Action :=
  -- lines 108-111
  if args.length < 1 ∨ args.length > 3 then [.usage, .exit 1]
  else
    match args[0]? with
    | none => [.indexPanic]
    | some spec =>
      -- lines 113-126
      match addresses spec with
      | none =>
        match osArgs[1]? with
        | none => [.indexPanic]
        | some a => [.badSpec a, .exit 1]
      | some (bindAddress, hostAddress) =>
        -- lines 159-163
        let call (sendLog recvLog : LogFile) : List Action :=
          .netTee bindAddress hostAddress sendLog recvLog ::
            (if netTee bindAddress hostAddress ≠ none then [.printErr, .exit 1] else [])
        -- lines 128-157
        match args[1]? with
        | none => call .stdout .stdout
        | some log =>
          if opens log = false then [.openFile log useAppend, .printErr, .exit 1]
          else
            match args[2]? with
            | none => .openFile log useAppend :: call (.file log) (.file log)
            | some rlog =>
              if opens rlog = false then
                [.openFile log useAppend, .openFile rlog useAppend, .printErr, .exit 1]
              else
                .openFile log useAppend :: .openFile rlog useAppend ::
                  call (.file log) (.file rlog)

/-- Whether an action is a call of `NetTee`. -/
def Action.isNetTee : Action → Bool
  | .netTee _ _ _ _ => true
  | _ => false

/-! ## NetTee: invariants -/

namespace NetTee

theorem countP_set_add {α : Type} (p : α → Bool) :
    ∀ (l : List α) (i : Nat) (a b : α), l[i]? = some a →
      (l.set i b).countP p + (if p a then 1 else 0) = l.countP p + (if p b then 1 else 0)
  | [], i, a, b, h => by simp at h
  | x :: xs, 0, a, b, h => by
    simp at h
    subst h
    simp only [List.set_cons_zero, List.countP_cons]
    omega
  | x :: xs, i + 1, a, b, h => by
    simp at h
    have ih := countP_set_add p xs i a b (by simpa using h)
    simp only [List.set_cons_succ, List.countP_cons]
    omega

theorem relayStep_some {s s' : State} {i : Nat} {g : Relay → Option Relay}
    (h : relayStep s i g = some s') :
    ∃ r r', s.relays[i]? = some r ∧ g r = some r' ∧
      s' = { s with relays := s.relays.set i r' } := by
  unfold relayStep at h
  cases hr : s.relays[i]? with
  | none => rw [hr] at h; simp at h
  | some r =>
    rw [hr] at h
    cases hg : g r with
    | none => simp [hg] at h
    | some r' =>
      simp [hg] at h
      exact ⟨r, r', rfl, hg, h.symm⟩

theorem afterRecv_eq_wgWait (f : Flags) :
    afterRecv f = .wgWait ↔ (f.keepListening = false ∧ f.maxConcurrentConnections = 0) := by
  unfold afterRecv
  split
  · rename_i h
    simp at h
    simp [h]
  · rename_i h
    simp at h
    simp
    intro hk
    have := h hk
    omega

theorem afterRecv_eq_dial (f : Flags)
    (h : f.keepListening = true ∨ 1 ≤ f.maxConcurrentConnections) : afterRecv f = .dial := by
  unfold afterRecv
  split
  · rename_i hc
    simp at hc
    rcases h with h | h
    · simp [h] at hc
    · omega
  · rfl

theorem afterRecv_ne_poolRecv (f : Flags) : afterRecv f ≠ .poolRecv := by
  unfold afterRecv; split <;> simp

theorem afterRecv_ne_listen (f : Flags) : afterRecv f ≠ .listen := by
  unfold afterRecv; split <;> simp

theorem afterRecv_ne_returnedListen (f : Flags) : afterRecv f ≠ .returnedListen := by
  unfold afterRecv; split <;> simp

theorem Inv_init (f : Flags) : Inv f init := by
  constructor <;> simp [init]

theorem Inv_relay {f : Flags} {s : State} {i : Nat} {r r' : Relay} (h : Inv f s)
    (hr : s.relays[i]? = some r) (hu : Relay.unreleased r' = Relay.unreleased r)
    (hw : Relay.running r' = Relay.running r) : Inv f { s with relays := s.relays.set i r' } := by
  obtain ⟨h1, h2, h3⟩ := h
  have cu := countP_set_add Relay.unreleased s.relays i r r' hr
  have cw := countP_set_add Relay.running s.relays i r r' hr
  rw [hu] at cu
  rw [hw] at cw
  constructor
  · intro hx
    have := h1 hx
    rw [this] at hr
    simp at hr
  · intro ha hb
    have := h2 ha hb
    simp only [owed] at this ⊢
    omega
  · simp only
    omega

theorem Inv_step {f : Flags} {s s' : State} {e : Event} (h : Inv f s)
    (hs : step f s e = some s') : Inv f s' := by
  obtain ⟨h1, h2, h3⟩ := h
  cases e with
  | listenOk =>
    simp only [step] at hs
    split at hs
    · rename_i hpc
      simp at hs; subst hs
      have := h1 (Or.inl hpc)
      constructor <;> simp_all [owed]
    · simp at hs
  | listenFail e =>
    simp only [step] at hs
    split at hs
    · rename_i hpc
      simp at hs; subst hs
      have := h1 (Or.inl hpc)
      constructor <;> simp_all [owed]
    · simp at hs
  | dialOk =>
    simp only [step] at hs
    split at hs
    · rename_i hpc
      simp at hs; subst hs
      constructor <;> simp_all [owed]
    · simp at hs
  | dialFail e =>
    simp only [step] at hs
    split at hs
    · rename_i hpc
      simp at hs; subst hs
      constructor <;> simp_all [owed]
    · simp at hs
  | acceptOk =>
    simp only [step] at hs
    split at hs
    · rename_i r hpc hrem
      simp at hs; subst hs
      constructor
      · simp
      · intro _ _
        have := h2 (by simp [hpc]) (by simp [hpc])
        simp [owed, hpc, spawn, Relay.unreleased] at this ⊢
        omega
      · simp [h3, spawn, Relay.running]
    · simp at hs
  | acceptFail e =>
    simp only [step] at hs
    split at hs
    · rename_i r hpc hrem
      simp at hs; subst hs
      constructor <;> simp_all [owed]
    · simp at hs
  | poolRecv =>
    simp only [step] at hs
    split at hs
    · rename_i hc
      obtain ⟨hpc, hpos⟩ := hc
      simp at hs; subst hs
      have hne := afterRecv_ne_poolRecv f
      constructor
      · intro hx
        rcases hx with hx | hx
        · exact absurd hx (afterRecv_ne_listen f)
        · exact absurd hx (afterRecv_ne_returnedListen f)
      · intro _ _
        have := h2 (by simp [hpc]) (by simp [hpc])
        simp [owed, hpc, hne] at this ⊢
        omega
      · simpa using h3
    · simp at hs
  | handoff i =>
    simp only [step] at hs
    split at hs
    · rename_i hc
      obtain ⟨hpc, hN⟩ := hc
      obtain ⟨r, r', hr, hg, rfl⟩ := relayStep_some hs
      simp only at hr
      split at hg
      · rename_i hrpc
        simp at hg; subst hg
        have hne := afterRecv_ne_poolRecv f
        have hu := countP_set_add Relay.unreleased s.relays i r { r with pc := .wgDone } hr
        have hw := countP_set_add Relay.running s.relays i r { r with pc := .wgDone } hr
        simp [Relay.unreleased, Relay.running, hrpc] at hu hw
        constructor
        · intro hx
          rcases hx with hx | hx
          · exact absurd hx (afterRecv_ne_listen f)
          · exact absurd hx (afterRecv_ne_returnedListen f)
        · intro _ _
          have := h2 (by simp [hpc]) (by simp [hpc])
          simp [owed, hpc, hne] at this ⊢
          omega
        · simp only
          omega
      · simp at hg
    · simp at hs
  | wgWait =>
    simp only [step] at hs
    split at hs
    · rename_i hc
      simp at hs; subst hs
      constructor <;> simp_all [owed]
    · simp at hs
  | fwdDone i =>
    simp only [step] at hs
    obtain ⟨r, r', hr, hg, rfl⟩ := relayStep_some hs
    split at hg
    · simp at hg; subst hg
      exact Inv_relay ⟨h1, h2, h3⟩ hr rfl rfl
    · simp at hg
  | revDone i =>
    simp only [step] at hs
    obtain ⟨r, r', hr, hg, rfl⟩ := relayStep_some hs
    split at hg
    · simp at hg; subst hg
      exact Inv_relay ⟨h1, h2, h3⟩ hr rfl rfl
    · simp at hg
  | wgCopyWait i =>
    simp only [step] at hs
    obtain ⟨r, r', hr, hg, rfl⟩ := relayStep_some hs
    split at hg
    · rename_i hc
      simp at hg; subst hg
      exact Inv_relay ⟨h1, h2, h3⟩ hr (by simp [Relay.unreleased, hc.1])
        (by simp [Relay.running, hc.1])
    · simp at hg
  | poolSend i =>
    simp only [step] at hs
    split at hs
    · rename_i hlt
      obtain ⟨r, r', hr, hg, rfl⟩ := relayStep_some hs
      simp only at hr
      split at hg
      · rename_i hrpc
        simp at hg; subst hg
        have hu := countP_set_add Relay.unreleased s.relays i r { r with pc := .wgDone } hr
        have hw := countP_set_add Relay.running s.relays i r { r with pc := .wgDone } hr
        simp [Relay.unreleased, Relay.running, hrpc] at hu hw
        constructor
        · intro hx
          have := h1 hx
          rw [this] at hr
          simp at hr
        · intro ha hb
          have := h2 ha hb
          simp only [owed] at this ⊢
          omega
        · simp only
          omega
      · simp at hg
    · simp at hs
  | wgDone i =>
    simp only [step] at hs
    obtain ⟨r, r', hr, hg, rfl⟩ := relayStep_some hs
    simp only at hr
    split at hg
    · rename_i hrpc
      simp at hg; subst hg
      have hu := countP_set_add Relay.unreleased s.relays i r { r with pc := .connClose } hr
      have hw := countP_set_add Relay.running s.relays i r { r with pc := .connClose } hr
      simp [Relay.unreleased, Relay.running, hrpc] at hu hw
      constructor
      · intro hx
        have := h1 hx
        rw [this] at hr
        simp at hr
      · intro ha hb
        have := h2 ha hb
        simp only [owed] at this ⊢
        omega
      · simp only
        omega
    · simp at hg
  | connClose i =>
    simp only [step] at hs
    obtain ⟨r, r', hr, hg, rfl⟩ := relayStep_some hs
    split at hg
    · rename_i hc
      simp at hg; subst hg
      exact Inv_relay ⟨h1, h2, h3⟩ hr (by simp [Relay.unreleased, hc]; decide)
        (by simp [Relay.running, hc]; decide)
    · simp at hg
  | remoteClose i =>
    simp only [step] at hs
    obtain ⟨r, r', hr, hg, rfl⟩ := relayStep_some hs
    split at hg
    · rename_i hc
      simp at hg; subst hg
      exact Inv_relay ⟨h1, h2, h3⟩ hr (by simp [Relay.unreleased, hc]; decide)
        (by simp [Relay.running, hc]; decide)
    · simp at hg

/-- An invariant of `step` that holds initially holds along every run. -/
theorem run_preserves {f : Flags} {P : State → Prop}
    (hstep : ∀ s e s', P s → step f s e = some s' → P s') :
    ∀ (evs : List Event) (s s' : State), P s → run f s evs = some s' → P s'
  | [], s, s', hP, h => by
    simp [run] at h
    subst h
    exact hP
  | e :: es, s, s', hP, h => by
    simp only [run] at h
    cases hse : step f s e with
    | none => rw [hse] at h; simp at h
    | some s1 =>
      rw [hse] at h
      exact run_preserves hstep es s1 s' (hstep s e s1 hP hse) h

/-- A relay goroutine's own step leaves the engine's variables alone. -/
theorem step_relayOnly {f : Flags} {s s' : State} {e : Event}
    (hs : step f s e = some s') (he : e.isRelayOnly = true) :
    s'.pc = s.pc ∧ s'.err = s.err ∧ s'.remote = s.remote ∧ s'.result = s.result ∧
      s'.relays.length = s.relays.length := by
  cases e <;> simp [Event.isRelayOnly] at he <;> simp only [step] at hs
  case poolSend i =>
    split at hs
    · obtain ⟨r, r', _, _, rfl⟩ := relayStep_some hs
      simp
    · simp at hs
  all_goals
    obtain ⟨r, r', _, _, rfl⟩ := relayStep_some hs
    simp

/-- How each step of the engine moves its program counter. -/
theorem step_engine {f : Flags} {s s' : State} {e : Event}
    (hs : step f s e = some s') (he : e.isRelayOnly = false) :
    (e = .listenOk ∧ s.pc = .listen ∧ s'.pc = .dial ∧ s'.relays = s.relays) ∨
    ((∃ x, e = .listenFail x) ∧ s.pc = .listen ∧ s'.pc = .returnedListen ∧
      s'.relays = s.relays) ∨
    (e = .dialOk ∧ s.pc = .dial ∧ s'.pc = .accept ∧ s'.relays = s.relays ∧
      s'.remote = some ⟨false⟩) ∨
    ((∃ x, e = .dialFail x) ∧ s.pc = .dial ∧ s'.pc = .wgWait ∧ s'.relays = s.relays) ∨
    (e = .acceptOk ∧ s.pc = .accept ∧ s'.pc = .poolRecv ∧
      ∃ r, s.remote = some r ∧ s'.relays = s.relays ++ [spawn ⟨false⟩ r]) ∨
    ((∃ x, e = .acceptFail x) ∧ s.pc = .accept ∧ s'.pc = .wgWait ∧ s'.relays = s.relays ∧
      s'.remote = some ⟨true⟩) ∨
    (e = .poolRecv ∧ s.pc = .poolRecv ∧ s'.pc = afterRecv f ∧ s'.relays = s.relays) ∨
    ((∃ i, e = .handoff i) ∧ s.pc = .poolRecv ∧ s'.pc = afterRecv f ∧
      s'.relays.length = s.relays.length) ∨
    (e = .wgWait ∧ s.pc = .wgWait ∧ s'.pc = .returned ∧ s'.relays = s.relays ∧
      s'.result = some s.err) := by
  cases e <;> simp [Event.isRelayOnly] at he <;> simp only [step] at hs
  case listenOk =>
    split at hs
    · simp at hs; subst hs; simp_all
    · simp at hs
  case listenFail x =>
    split at hs
    · simp at hs; subst hs; simp_all
    · simp at hs
  case dialOk =>
    split at hs
    · simp at hs; subst hs; simp_all
    · simp at hs
  case dialFail x =>
    split at hs
    · simp at hs; subst hs; simp_all
    · simp at hs
  case acceptOk =>
    split at hs
    · simp at hs; subst hs; simp_all
    · simp at hs
  case acceptFail x =>
    split at hs
    · simp at hs; subst hs; simp_all
    · simp at hs
  case poolRecv =>
    split at hs
    · simp at hs; subst hs; simp_all
    · simp at hs
  case handoff i =>
    split at hs
    · rename_i hc
      obtain ⟨r, r', _, _, rfl⟩ := relayStep_some hs
      simp [hc.1]
    · simp at hs
  case wgWait =>
    split at hs
    · simp at hs; subst hs; simp_all
    · simp at hs

theorem run_snoc {f : Flags} : ∀ (evs : List Event) (e : Event) (s s' : State),
    run f s (evs ++ [e]) = some s' ↔ ∃ s1, run f s evs = some s1 ∧ step f s1 e = some s'
  | [], e, s, s' => by
    simp only [List.nil_append, run]
    cases hx : step f s e <;> simp [run, hx]
  | x :: xs, e, s, s' => by
    simp only [List.cons_append, run]
    cases hx : step f s x with
    | none => simp
    | some s2 => simpa using run_snoc xs e s2 s'

/-- Induction along a run, with the events so far in hand. -/
theorem run_trace_induction {f : Flags} {P : List Event → State → Prop} (h0 : P [] init)
    (hstep : ∀ evs s e s', run f init evs = some s → P evs s → step f s e = some s' →
      P (evs ++ [e]) s') :
    ∀ (evs : List Event) (s : State), run f init evs = some s → P evs s := by
  intro evs
  induction evs using List.reverseRecOn with
  | nil =>
    intro s h
    simp [run] at h
    subst h
    exact h0
  | append_singleton es e ih =>
    intro s h
    obtain ⟨s1, h1, h2⟩ := (run_snoc es e init s).mp h
    exact hstep es s1 e s h1 (ih s1 h1) h2

/-- Only `net.Listen` assigns the function-scope `err`: a successful one sets
it to nil, and nothing on the way from there to line 102 assigns it again. -/
theorem step_err {f : Flags} {s s' : State} {e : Event} (hs : step f s e = some s') :
    (e = .listenOk → s'.err = none) ∧
      (e ≠ .listenOk → (∀ x, e ≠ .listenFail x) → s'.err = s.err) := by
  cases he : e.isRelayOnly with
  | true =>
    have := (step_relayOnly hs he).2.1
    cases e <;> simp [Event.isRelayOnly] at he <;> simp [this]
  | false =>
    cases e <;> simp [Event.isRelayOnly] at he <;> simp only [step] at hs
    case handoff i =>
      split at hs
      · obtain ⟨r, r', _, _, rfl⟩ := relayStep_some hs
        simp
      · simp at hs
    all_goals
      split at hs
      · simp at hs; subst hs; simp
      · simp at hs

/-- How a step changes the number of values buffered in `pool`. -/
theorem step_pool {f : Flags} {s s' : State} {e : Event} (hs : step f s e = some s') :
    (e = .listenOk ∧ s'.pool = f.maxConcurrentConnections) ∨
    (e = .poolRecv ∧ s'.pool + 1 = s.pool) ∨
    ((∃ i, e = .poolSend i) ∧ s.pool < f.maxConcurrentConnections ∧ s'.pool = s.pool + 1) ∨
    ((∀ i, e ≠ .poolSend i) ∧ e ≠ .poolRecv ∧ s'.pool = s.pool) := by
  cases e <;> simp only [step] at hs
  case poolSend i =>
    split at hs
    · rename_i hlt
      obtain ⟨r, r', _, _, rfl⟩ := relayStep_some hs
      simp [hlt]
    · simp at hs
  case poolRecv =>
    split at hs
    · rename_i hc
      simp at hs; subst hs
      simp
      omega
    · simp at hs
  case handoff i =>
    split at hs
    · obtain ⟨r, r', _, _, rfl⟩ := relayStep_some hs
      simp
    · simp at hs
  case fwdDone i => obtain ⟨r, r', _, _, rfl⟩ := relayStep_some hs; simp
  case revDone i => obtain ⟨r, r', _, _, rfl⟩ := relayStep_some hs; simp
  case wgCopyWait i => obtain ⟨r, r', _, _, rfl⟩ := relayStep_some hs; simp
  case wgDone i => obtain ⟨r, r', _, _, rfl⟩ := relayStep_some hs; simp
  case connClose i => obtain ⟨r, r', _, _, rfl⟩ := relayStep_some hs; simp
  case remoteClose i => obtain ⟨r, r', _, _, rfl⟩ := relayStep_some hs; simp
  all_goals
    split at hs
    · simp at hs; subst hs; simp
    · simp at hs

/-- The buffer of `pool` never holds more than its capacity. -/
theorem pool_le {f : Flags} {s : State} (h : Reachable f s) :
    s.pool ≤ f.maxConcurrentConnections := by
  obtain ⟨evs, hrun⟩ := h
  refine run_preserves (P := fun s => s.pool ≤ f.maxConcurrentConnections) ?_ evs init s
    (by simp [init]) hrun
  intro s e s' hP hs
  rcases step_pool hs with ⟨_, h⟩ | ⟨_, h⟩ | ⟨_, h1, h2⟩ | ⟨_, _, h⟩ <;> omega

/-- Only a successful accept adds a relay. -/
theorem step_length {f : Flags} {s s' : State} {e : Event} (hs : step f s e = some s') :
    s'.relays.length = s.relays.length + (if e = .acceptOk then 1 else 0) := by
  cases he : e.isRelayOnly with
  | true =>
    have := (step_relayOnly hs he).2.2.2.2
    cases e <;> simp [Event.isRelayOnly] at he <;> simp [this]
  | false =>
    rcases step_engine hs he with
      ⟨rfl, _, _, c⟩ | ⟨⟨x, rfl⟩, _, _, c⟩ | ⟨rfl, _, _, c, _⟩ | ⟨⟨x, rfl⟩, _, _, c⟩ |
      ⟨rfl, _, _, r, _, c⟩ | ⟨⟨x, rfl⟩, _, _, c, _⟩ | ⟨rfl, _, _, c⟩ | ⟨⟨i, rfl⟩, _, _, c⟩ |
      ⟨rfl, _, _, c, _⟩
    all_goals simp [c]

theorem afterRecv_ne_returned (f : Flags) : afterRecv f ≠ .returned := by
  unfold afterRecv; split <;> simp

theorem afterRecv_ne_accept (f : Flags) : afterRecv f ≠ .accept := by
  unfold afterRecv; split <;> simp

theorem TraceInv_init : TraceInv [] init := by
  constructor <;> simp [init, acquires, acceptsOk, acceptsFailed, dialsOk, owed]

theorem TraceInv_step {f : Flags} {evs : List Event} {s s' : State} {e : Event}
    (h : TraceInv evs s) (hs : step f s e = some s') : TraceInv (evs ++ [e]) s' := by
  obtain ⟨h1, h2, h3, h4, h5, h6⟩ := h
  cases he : e.isRelayOnly with
  | true =>
    obtain ⟨e1, e2, e3, e4, e5⟩ := step_relayOnly hs he
    have c1 : acquires (evs ++ [e]) = acquires evs := by
      cases e <;> simp [Event.isRelayOnly] at he <;>
        simp [acquires, List.countP_append, List.countP_cons, Event.isAcquire]
    have c2 : acceptsOk (evs ++ [e]) = acceptsOk evs := by
      cases e <;> simp [Event.isRelayOnly] at he <;>
        simp [acceptsOk, List.countP_append, List.countP_cons]
    have c3 : acceptsFailed (evs ++ [e]) = acceptsFailed evs := by
      cases e <;> simp [Event.isRelayOnly] at he <;>
        simp [acceptsFailed, List.countP_append, List.countP_cons]
    have c4 : dialsOk (evs ++ [e]) = dialsOk evs := by
      cases e <;> simp [Event.isRelayOnly] at he <;>
        simp [dialsOk, List.countP_append, List.countP_cons]
    constructor
    · rw [c1, e5]; simpa [owed, e1] using h1
    · rw [c2, e5]; exact h2
    · rw [c2, c3, c4, e1]; exact h3
    · rw [e1, e3]; exact h4
    · rw [e1, e2]; exact h5
    · rw [e1, e4]; exact h6
  | false =>
    have hne := afterRecv_ne_poolRecv f
    rcases step_engine hs he with
      ⟨rfl, a, b, c⟩ | ⟨⟨x, rfl⟩, a, b, c⟩ | ⟨rfl, a, b, c, d⟩ | ⟨⟨x, rfl⟩, a, b, c⟩ |
      ⟨rfl, a, b, r, c, d⟩ | ⟨⟨x, rfl⟩, a, b, c, d⟩ | ⟨rfl, a, b, c⟩ | ⟨⟨i, rfl⟩, a, b, c⟩ |
      ⟨rfl, a, b, c, d⟩
    all_goals
      have herr := step_err hs
      have hl := step_length hs
      have hna := afterRecv_ne_accept f
      have hnr := afterRecv_ne_returned f
      simp [acquires, acceptsOk, acceptsFailed, dialsOk, owed, a] at h1 h2 h3 h4 h5 herr hl
      refine ⟨?_, ?_, ?_, ?_, ?_, ?_⟩
      · simp [acquires, List.countP_append, Event.isAcquire, owed, b, hne]; omega
      · simp [acceptsOk, List.countP_append]; omega
      · simp [acceptsOk, acceptsFailed, dialsOk, List.countP_append, b, hna]; omega
      · simp_all
      · simp_all
      · simp_all

theorem Inv_reachable {f : Flags} {s : State} (h : Reachable f s) : Inv f s := by
  obtain ⟨evs, hrun⟩ := h
  exact run_preserves (fun _ _ _ hP hs => Inv_step hP hs) evs init s (Inv_init f) hrun

theorem TraceInv_run {f : Flags} {evs : List Event} {s : State}
    (h : run f init evs = some s) : TraceInv evs s :=
  run_trace_induction TraceInv_init (fun _ _ _ _ _ hP hs => TraceInv_step hP hs) evs s h

/-! ## NetTee: the value returned (C1) -/

/-- Whenever `NetTee` returns through line 102, it returns nil: the `err` it
returns is the one `net.Listen` set, and the errors of `net.Dial` and
`server.Accept` live in the loop body's own `err`. -/
theorem returned_nil {f : Flags} {evs : List Event} {s : State}
    (h : run f init evs = some s) (hpc : s.pc = .returned) : s.result = some none :=
  (TraceInv_run h).retNil hpc

/-- C1 (the code departs from it): when the listener binds and the first
`net.Dial` fails with `e`, or the first dial succeeds and `server.Accept` then
fails with `e`, `NetTee` runs to its `return err` of line 102 and the value it
returns is nil, not `e`. -/
theorem NetTee_loop_error_returns_nil (f : Flags) (e : GoError) :
    (run f init [.listenOk, .dialFail e, .wgWait]).map State.result = some (some none) ∧
    (run f init [.listenOk, .dialOk, .acceptFail e, .wgWait]).map State.result =
      some (some none) := by
  constructor <;> simp [run, step, init]

/-! ## NetTee: the admission gate (C2, C3, C10) -/

/-- With `-n N`, `N > 0`, at most `N + 1` relays are between spawn and the
return of their value to `pool`; with `N = 0` at most one is. -/
theorem unreleased_le {f : Flags} {s : State} (h : Reachable f s) :
    s.relays.countP Relay.unreleased ≤ f.maxConcurrentConnections + 1 := by
  have hI := Inv_reachable h
  by_cases h1 : s.pc = .listen ∨ s.pc = .returnedListen
  · simp [hI.fresh h1]
  · have := hI.tokens (fun x => h1 (Or.inl x)) (fun x => h1 (Or.inr x))
    simp only [owed] at this
    split at this <;> omega

/-- The bound `N + 1` is reached for every `-n N` with `N > 0`: after `N`
relays have been spawned and admitted, one more is spawned before the engine
blocks at `<-pool`, and all `N + 1` are mid-copy. -/
theorem gate_admits_one_more (k : Bool) (n : Nat) (hn : 0 < n) :
    ∃ evs s, run ⟨k, n⟩ init evs = some s ∧ s.pc = .poolRecv ∧ s.pool = 0 ∧
      s.relays.countP Relay.midCopy = n + 1 := by
  have hdial : afterRecv ⟨k, n⟩ = .dial := afterRecv_eq_dial ⟨k, n⟩ (Or.inr hn)
  have hrounds : ∀ j, j ≤ n → ∃ evs, run ⟨k, n⟩ init evs = some (admitted n j) := by
    intro j
    induction j with
    | zero =>
      intro _
      exact ⟨[.listenOk], by simp [run, step, init, admitted]⟩
    | succ j ih =>
      intro hj
      obtain ⟨evs, hrun⟩ := ih (by omega)
      refine ⟨evs ++ [.dialOk] ++ [.acceptOk] ++ [.poolRecv], ?_⟩
      rw [run_snoc]
      refine ⟨{ (admitted n j) with
                pc := .poolRecv, wg := j + 1,
                relays := List.replicate (j + 1) (spawn ⟨false⟩ ⟨false⟩) }, ?_, ?_⟩
      · rw [run_snoc]
        refine ⟨{ (admitted n j) with pc := .accept, remote := some ⟨false⟩ }, ?_, ?_⟩
        · rw [run_snoc]
          exact ⟨admitted n j, hrun, by simp [step, admitted]⟩
        · simp [step, admitted, List.replicate_succ']
      · have hpos : 0 < n - j := by omega
        have hsub : n - j - 1 = n - (j + 1) := by omega
        simp [step, admitted, hpos, hdial, hsub]
  obtain ⟨evs, hrun⟩ := hrounds n (le_refl n)
  refine ⟨evs ++ [.dialOk] ++ [.acceptOk],
    { (admitted n n) with
      pc := .poolRecv, wg := n + 1,
      relays := List.replicate (n + 1) (spawn ⟨false⟩ ⟨false⟩) }, ?_, rfl, ?_, ?_⟩
  · rw [run_snoc]
    refine ⟨{ (admitted n n) with pc := .accept, remote := some ⟨false⟩ }, ?_, ?_⟩
    · rw [run_snoc]
      exact ⟨admitted n n, hrun, by simp [step, admitted]⟩
    · simp [step, admitted, List.replicate_succ']
  · simp [admitted]
  · simp [List.countP_replicate, Relay.midCopy, spawn]

/-- C2 (the code departs from it): with `-n 1`, after one relay has been
spawned and its receive from `pool` done, the engine dials, accepts and spawns
a second relay before it reaches `<-pool` again: two relays are mid-copy, none
of them having finished a copy task or returned its value to `pool`. -/
theorem NetTee_two_relays_under_n1 :
    ∃ s, run ⟨false, 1⟩ init [.listenOk, .dialOk, .acceptOk, .poolRecv, .dialOk, .acceptOk]
        = some s ∧
      s.relays.countP Relay.midCopy = 2 ∧ s.relays.countP Relay.unreleased = 2 ∧
      s.relays = [spawn ⟨false⟩ ⟨false⟩, spawn ⟨false⟩ ⟨false⟩] ∧ s.pool = 0 := by
  refine ⟨_, rfl, ?_, ?_, ?_, ?_⟩ <;> decide

/-- On an unbuffered `pool` (no `-n`), whatever `-k` is, the engine at `<-pool`
moves on only by meeting a relay that is at `pool <- true`, that is, one whose
two copy tasks are both over. -/
theorem poolRecv_needs_finished_relay {f : Flags} {s s' : State} {e : Event}
    (hreach : Reachable f s) (hN : f.maxConcurrentConnections = 0) (hpc : s.pc = .poolRecv)
    (hs : step f s e = some s') (hmove : s'.pc ≠ .poolRecv) :
    ∃ i r, e = .handoff i ∧ s.relays[i]? = some r ∧ r.pc = .poolSend := by
  have hp := pool_le hreach
  cases he : e.isRelayOnly with
  | true => exact absurd ((step_relayOnly hs he).1.trans hpc) hmove
  | false =>
    cases e <;> simp [Event.isRelayOnly] at he <;> simp only [step] at hs
    case handoff i =>
      split at hs
      · obtain ⟨r, r', hr, hg, rfl⟩ := relayStep_some hs
        simp only at hr
        split at hg
        · rename_i hrpc
          exact ⟨i, r, rfl, hr, hrpc⟩
        · simp at hg
      · simp at hs
    case poolRecv =>
      split at hs
      · rename_i hc
        have hI := hc.2
        omega
      · simp at hs
    all_goals
      split at hs
      · simp_all
      · simp at hs

/-- C3 (the code departs from it): with `-k` and no `-n` the channel `pool` is
unbuffered; once the first relay is spawned and still copying, the engine is at
`<-pool` and no step lets it leave: the receive is not enabled, no relay is at
`pool <- true` to meet it, and every step that is enabled (a copy task of the
relay ending) leaves the engine at `<-pool`. -/
theorem NetTee_blocked_under_k_n0 :
    ∃ s, run ⟨true, 0⟩ init [.listenOk, .dialOk, .acceptOk] = some s ∧
      s.pc = .poolRecv ∧ s.relays = [spawn ⟨false⟩ ⟨false⟩] ∧
      s.relays.countP Relay.midCopy = 1 ∧
      step ⟨true, 0⟩ s .poolRecv = none ∧ (∀ i, step ⟨true, 0⟩ s (.handoff i) = none) ∧
      ∀ e s', step ⟨true, 0⟩ s e = some s' → s'.pc = .poolRecv := by
  refine ⟨{ pc := .poolRecv, err := none, remote := none, pool := 0, wg := 1,
            relays := [spawn ⟨false⟩ ⟨false⟩], serverClosed := false, result := none },
          by decide, rfl, rfl, by decide, by decide, ?_, ?_⟩
  · intro i
    rcases i with _ | i <;> simp [step, relayStep, spawn]
  · intro e s' hs
    cases he : e.isRelayOnly with
    | true => exact (step_relayOnly hs he).1
    | false =>
      cases e <;> simp [Event.isRelayOnly] at he <;> simp only [step] at hs
      case handoff i =>
        rcases i with _ | i <;> simp [relayStep, spawn] at hs
      all_goals simp at hs

theorem sum_map_set_add {α : Type} (g : α → Nat) :
    ∀ (l : List α) (i : Nat) (a b : α), l[i]? = some a →
      ((l.set i b).map g).sum + g a = (l.map g).sum + g b
  | [], i, a, b, h => by simp at h
  | x :: xs, 0, a, b, h => by
    simp at h
    subst h
    simp only [List.set_cons_zero, List.map_cons, List.sum_cons]
    omega
  | x :: xs, i + 1, a, b, h => by
    simp at h
    have ih := sum_map_set_add g xs i a b (by simpa using h)
    simp only [List.set_cons_succ, List.map_cons, List.sum_cons]
    omega

theorem exists_pos_of_sum_pos {α : Type} (g : α → Nat) :
    ∀ (l : List α), 0 < (l.map g).sum → ∃ (i : Nat) (a : α), l[i]? = some a ∧ 0 < g a
  | [], h => by simp at h
  | x :: xs, h => by
    by_cases hx : 0 < g x
    · exact ⟨0, x, by simp, hx⟩
    · simp only [List.map_cons, List.sum_cons] at h
      obtain ⟨i, a, hi, ha⟩ := exists_pos_of_sum_pos g xs (by omega)
      exact ⟨i + 1, a, by simpa using hi, ha⟩

/-- While the engine waits at `wg.Wait()` and some relay has not called
`wg.Done()`, that relay has an enabled step that brings it closer: the end of
a copy task, `wgCopy.Wait()`, the send to `pool` (which finds a free slot), or
`wg.Done()`. -/
theorem drain_step {f : Flags} {s : State} (hreach : Reachable f s) (hpc : s.pc = .wgWait)
    (hpos : 0 < (s.relays.map remaining).sum) :
    ∃ e s', step f s e = some s' ∧ s'.pc = .wgWait ∧
      (s'.relays.map remaining).sum < (s.relays.map remaining).sum := by
  obtain ⟨i, r, hr, hrem⟩ := exists_pos_of_sum_pos remaining s.relays hpos
  have hI := Inv_reachable hreach
  have key : ∀ (r' : Relay) (s' : State), (∃ e, step f s e = some s') → s'.pc = .wgWait →
      s'.relays = s.relays.set i r' → remaining r' < remaining r →
      ∃ e s', step f s e = some s' ∧ s'.pc = .wgWait ∧
        (s'.relays.map remaining).sum < (s.relays.map remaining).sum := by
    intro r' s' ⟨e, he⟩ hpc' hrel hlt
    refine ⟨e, s', he, hpc', ?_⟩
    have := sum_map_set_add remaining s.relays i r r' hr
    rw [hrel]
    omega
  cases hrpc : r.pc with
  | wgCopyWait =>
    by_cases hf : r.fwdDone = false
    · refine key { r with fwdDone := true } { s with relays := s.relays.set i _ }
        ⟨.fwdDone i, ?_⟩ hpc rfl ?_
      · simp [step, relayStep, hr, hrpc, hf]
      · simp [remaining, hrpc, hf]
    · by_cases hv : r.revDone = false
      · refine key { r with revDone := true } { s with relays := s.relays.set i _ }
          ⟨.revDone i, ?_⟩ hpc rfl ?_
        · simp [step, relayStep, hr, hrpc, hv]
        · simp [remaining, hrpc, hv]
      · simp at hf hv
        refine key { r with pc := .poolSend } { s with relays := s.relays.set i _ }
          ⟨.wgCopyWait i, ?_⟩ hpc rfl ?_
        · simp [step, relayStep, hr, hrpc, hf, hv]
        · simp [remaining, hrpc, hf, hv]
  | poolSend =>
    have hu : 0 < s.relays.countP Relay.unreleased :=
      List.countP_pos_iff.mpr ⟨r, List.getElem?_mem hr, by simp [Relay.unreleased, hrpc]⟩
    have htok := hI.tokens (by simp [hpc]) (by simp [hpc])
    simp [owed, hpc] at htok
    have hlt : s.pool < f.maxConcurrentConnections := by omega
    refine key { r with pc := .wgDone }
      { s with pool := s.pool + 1, relays := s.relays.set i _ } ⟨.poolSend i, ?_⟩ hpc rfl ?_
    · simp [step, relayStep, hr, hrpc, hlt]
    · simp [remaining, hrpc]
  | wgDone =>
    refine key { r with pc := .connClose }
      { s with wg := s.wg - 1, relays := s.relays.set i _ } ⟨.wgDone i, ?_⟩ hpc rfl ?_
    · simp [step, relayStep, hr, hrpc]
    · simp [remaining, hrpc]
  | connClose => simp [remaining, hrpc] at hrem
  | remoteClose => simp [remaining, hrpc] at hrem
  | exited => simp [remaining, hrpc] at hrem

/-- Once the accept loop is left, the run can always be completed: from every
state in which the engine waits at `wg.Wait()`, some sequence of relay steps
(each copy task ending in its own time) leads to `NetTee` returning. -/
theorem drain_completes {f : Flags} : ∀ (n : Nat) (s : State), Reachable f s →
    s.pc = .wgWait → (s.relays.map remaining).sum ≤ n →
    ∃ evs s', run f s evs = some s' ∧ s'.pc = .returned := by
  intro n
  induction n with
  | zero =>
    intro s hreach hpc hn
    have hI := Inv_reachable hreach
    have hz : s.relays.countP Relay.running = 0 := by
      rw [List.countP_eq_zero]
      intro r hr
      have hle : remaining r ≤ (s.relays.map remaining).sum :=
        List.single_le_sum (by simp) _ (List.mem_map_of_mem _ hr)
      have h0 : remaining r = 0 := by omega
      cases hrpc : r.pc <;> simp [remaining, hrpc] at h0 <;> simp [Relay.running, hrpc]
    have hwg : s.wg = 0 := by rw [hI.wg, hz]
    refine ⟨[.wgWait],
      { s with pc := .returned, result := some s.err, serverClosed := true }, ?_, rfl⟩
    simp [run, step, hpc, hwg]
  | succ n ih =>
    intro s hreach hpc hn
    by_cases h0 : (s.relays.map remaining).sum = 0
    · exact ih s hreach hpc (by omega)
    · obtain ⟨e, s1, hstep, hpc1, hlt⟩ := drain_step hreach hpc (by omega)
      obtain ⟨evs0, hrun0⟩ := hreach
      have hreach1 : Reachable f s1 :=
        ⟨evs0 ++ [e], (run_snoc evs0 e init s1).mpr ⟨s, hrun0, hstep⟩⟩
      obtain ⟨evs, s', hrun, hret⟩ := ih s1 hreach1 hpc1 (by omega)
      exact ⟨e :: evs, s', by simp [run, hstep, hrun], hret⟩

/-- C10: in every state of a run in which the engine has left the accept loop,
the receives from `pool` done so far are as many as the relays spawned; the
values buffered in `pool` plus the relays that have not sent theirs back are
exactly the capacity; every relay standing at `pool <- true` finds a free slot
and its send is enabled; on an unbuffered `pool` every relay has already sent
its value; and the run can be completed from there, `wg.Wait()` returning and
`NetTee` with it. -/
theorem gate_balanced_at_loop_exit (f : Flags) (evs : List Event) (s : State)
    (hrun : run f init evs = some s) (hexit : loopExited s = true) :
    acquires evs = s.relays.length ∧
    s.pool + s.relays.countP Relay.unreleased = f.maxConcurrentConnections ∧
    (∀ i r, s.relays[i]? = some r → r.pc = .poolSend →
      s.pool < f.maxConcurrentConnections ∧ (step f s (.poolSend i)).isSome = true) ∧
    (f.maxConcurrentConnections = 0 → ∀ r ∈ s.relays, Relay.unreleased r = false) ∧
    ∃ evs' s', run f s evs' = some s' ∧ s'.pc = .returned := by
  have hT := TraceInv_run hrun
  have hI := Inv_reachable ⟨evs, hrun⟩
  have hpc : s.pc = .wgWait ∨ s.pc = .returned := by
    simpa [loopExited] using hexit
  have ho : owed s = 0 := by
    rcases hpc with h | h <;> simp [owed, h]
  have htok : s.pool + s.relays.countP Relay.unreleased = f.maxConcurrentConnections := by
    have := hI.tokens (by rcases hpc with h | h <;> simp [h])
      (by rcases hpc with h | h <;> simp [h])
    omega
  refine ⟨?_, htok, ?_, ?_, ?_⟩
  · have := hT.acq
    omega
  · intro i r hr hrpc
    have hmem : r ∈ s.relays := List.getElem?_mem hr
    have hpos : 0 < s.relays.countP Relay.unreleased :=
      List.countP_pos_iff.mpr ⟨r, hmem, by simp [Relay.unreleased, hrpc]⟩
    have hlt : s.pool < f.maxConcurrentConnections := by omega
    refine ⟨hlt, ?_⟩
    simp [step, relayStep, hlt, hr, hrpc]
  · intro hN r hr
    have hz : s.relays.countP Relay.unreleased = 0 := by omega
    have := List.countP_eq_zero.mp hz r hr
    simpa using this
  · rcases hpc with h | h
    · exact drain_completes _ s ⟨evs, hrun⟩ h (le_refl _)
    · exact ⟨[], s, rfl, h⟩

/-- A run of C10: `-n 1`, one relay spawned and admitted, then a failed dial. -/
theorem gate_balanced_at_loop_exit_witness :
    run ⟨false, 1⟩ init [.listenOk, .dialOk, .acceptOk, .poolRecv, .dialFail (.other 1)] =
        some { pc := .wgWait, err := none, remote := none, pool := 0, wg := 1,
               relays := [spawn ⟨false⟩ ⟨false⟩], serverClosed := false, result := none } ∧
      acquires [.listenOk, .dialOk, .acceptOk, .poolRecv, .dialFail (.other 1)] = 1 :=
  ⟨by decide,
   (gate_balanced_at_loop_exit ⟨false, 1⟩
      [.listenOk, .dialOk, .acceptOk, .poolRecv, .dialFail (.other 1)]
      { pc := .wgWait, err := none, remote := none, pool := 0, wg := 1,
        relays := [spawn ⟨false⟩ ⟨false⟩], serverClosed := false, result := none }
      (by decide) (by decide)).1⟩

/-! ## NetTee: draining (C7) -/

/-- How a step changes the counter of `wg`. -/
theorem step_wg {f : Flags} {s s' : State} {e : Event} (hs : step f s e = some s') :
    e = .acceptOk ∨ s'.wg ≤ s.wg := by
  cases e <;> simp only [step] at hs
  case acceptOk => exact Or.inl rfl
  case poolSend i =>
    split at hs
    · obtain ⟨r, r', _, _, rfl⟩ := relayStep_some hs
      simp
    · simp at hs
  case handoff i =>
    split at hs
    · obtain ⟨r, r', _, _, rfl⟩ := relayStep_some hs
      simp
    · simp at hs
  case fwdDone i => obtain ⟨r, r', _, _, rfl⟩ := relayStep_some hs; simp
  case revDone i => obtain ⟨r, r', _, _, rfl⟩ := relayStep_some hs; simp
  case wgCopyWait i => obtain ⟨r, r', _, _, rfl⟩ := relayStep_some hs; simp
  case wgDone i => obtain ⟨r, r', _, _, rfl⟩ := relayStep_some hs; simp
  case connClose i => obtain ⟨r, r', _, _, rfl⟩ := relayStep_some hs; simp
  case remoteClose i => obtain ⟨r, r', _, _, rfl⟩ := relayStep_some hs; simp
  all_goals
    split at hs
    · simp at hs; subst hs; simp
    · simp at hs

/-- Once `NetTee` has returned, every relay it spawned has finished both copy
tasks, sent its value to `pool` and called `wg.Done()`; its two deferred
`Close` calls come after that. -/
theorem returned_relays_done {f : Flags} {s : State} (h : Reachable f s)
    (hpc : s.pc = .returned) : ∀ r ∈ s.relays, Relay.running r = false := by
  have hI := Inv_reachable h
  obtain ⟨evs, hrun⟩ := h
  have hwg : s.pc = .returned → s.wg = 0 := by
    refine run_preserves (P := fun s => s.pc = .returned → s.wg = 0) ?_ evs init s
      (by simp [init]) hrun
    intro s e s' hP hs hret
    cases he : e.isRelayOnly with
    | true =>
      have h1 := (step_relayOnly hs he).1
      have := hP (h1 ▸ hret)
      rcases step_wg hs with rfl | hle
      · simp [Event.isRelayOnly] at he
      · omega
    | false =>
      have hnr := afterRecv_ne_returned f
      rcases step_engine hs he with
        ⟨rfl, a, b, c⟩ | ⟨⟨x, rfl⟩, a, b, c⟩ | ⟨rfl, a, b, c, d⟩ | ⟨⟨x, rfl⟩, a, b, c⟩ |
        ⟨rfl, a, b, r, c, d⟩ | ⟨⟨x, rfl⟩, a, b, c, d⟩ | ⟨rfl, a, b, c⟩ |
        ⟨⟨i, rfl⟩, a, b, c⟩ | ⟨rfl, a, b, c, d⟩
      all_goals (try (rw [b] at hret; simp_all))
      simp only [step] at hs
      split at hs
      · rename_i hc
        simp at hs; subst hs
        exact hc.2
      · simp at hs
  intro r hr
  have hz : s.relays.countP Relay.running = 0 := by
    rw [← hI.wg]; exact hwg hpc
  have := List.countP_eq_zero.mp hz r hr
  simpa using this

/-- C7 (the code departs from it): a relay calls `wg.Done()` (line 90) before
its deferred `conn.Close()` and `remote.Close()` run, so `wg.Wait()` can return
and `NetTee` can return while the relay has closed neither stream: here the one
relay of a single-shot run has done its copies, handed its value to the engine
and called `wg.Done()`, and `NetTee` has returned with both streams open. -/
theorem NetTee_returns_with_streams_open :
    run ⟨false, 0⟩ init [.listenOk, .dialOk, .acceptOk, .fwdDone 0, .revDone 0,
        .wgCopyWait 0, .handoff 0, .wgDone 0, .wgWait] =
      some { pc := .returned, err := none, remote := none, pool := 0, wg := 0,
             relays := [{ pc := .connClose, fwdDone := true, revDone := true,
                          conn := ⟨false⟩, remote := ⟨false⟩ }],
             serverClosed := true, result := some none } := by
  decide

/-! ## NetTee: pairs (C8) -/

/-- C8: in every run, a failed accept finds the outbound connection of its
iteration open, closes it, leaves the relays as they were and ends the loop; a
step that changes the number of relays is a successful accept, taken while the
engine holds the open connection its dial returned, and adds one relay for that
pair; so the relays are as many as the successful accepts, and every successful
dial is matched by one accept, successful or failed, or is still awaiting it. -/
theorem accept_failure_spawns_no_relay (f : Flags) (evs : List Event) (s s' : State)
    (e : Event) (hrun : run f init evs = some s) (hstep : step f s e = some s') :
    ((∃ x, e = .acceptFail x) →
      s.pc = .accept ∧ s.remote = some ⟨false⟩ ∧ s'.remote = some ⟨true⟩ ∧
        s'.relays = s.relays ∧ s'.pc = .wgWait) ∧
    (s'.relays.length ≠ s.relays.length →
      e = .acceptOk ∧ s.pc = .accept ∧ s.remote = some ⟨false⟩ ∧
        s'.relays = s.relays ++ [spawn ⟨false⟩ ⟨false⟩]) ∧
    s'.relays.length = acceptsOk (evs ++ [e]) ∧
    acceptsOk (evs ++ [e]) + acceptsFailed (evs ++ [e]) +
      (if s'.pc = .accept then 1 else 0) = dialsOk (evs ++ [e]) := by
  have hT := TraceInv_run hrun
  have hT' := TraceInv_step hT hstep
  refine ⟨?_, ?_, hT'.spawned, hT'.paired⟩
  · rintro ⟨x, rfl⟩
    rcases step_engine hstep (by simp [Event.isRelayOnly]) with
      ⟨h, _⟩ | ⟨⟨_, h⟩, _⟩ | ⟨h, _⟩ | ⟨⟨_, h⟩, _⟩ | ⟨h, _⟩ | ⟨_, a, b, c, d⟩ | ⟨h, _⟩ |
      ⟨⟨_, h⟩, _⟩ | ⟨h, _⟩
    all_goals (try (simp at h))
    exact ⟨a, hT.held a, d, c, b⟩
  · intro hne
    have hl := step_length hstep
    by_cases he : e = .acceptOk
    · subst he
      rcases step_engine hstep (by simp [Event.isRelayOnly]) with
        ⟨h, _⟩ | ⟨⟨_, h⟩, _⟩ | ⟨h, _⟩ | ⟨⟨_, h⟩, _⟩ | ⟨_, a, b, r, c, d⟩ | ⟨⟨_, h⟩, _⟩ |
        ⟨h, _⟩ | ⟨⟨_, h⟩, _⟩ | ⟨h, _⟩
      all_goals (try (simp at h))
      have hr := hT.held a
      rw [c] at hr
      injection hr with hr
      subst hr
      exact ⟨rfl, a, c, d⟩
    · simp [he] at hl
      exact absurd hl hne

/-- A run of C8: the first dial succeeds and the accept then fails. -/
theorem accept_failure_spawns_no_relay_witness :
    run ⟨false, 0⟩ init [.listenOk, .dialOk] =
        some { pc := .accept, err := none, remote := some ⟨false⟩, pool := 0, wg := 0,
               relays := [], serverClosed := false, result := none } ∧
      step ⟨false, 0⟩ { pc := .accept, err := none, remote := some ⟨false⟩, pool := 0,
                        wg := 0, relays := [], serverClosed := false, result := none }
          (.acceptFail (.other 1)) =
        some { pc := .wgWait, err := none, remote := some ⟨true⟩, pool := 0, wg := 0,
               relays := [], serverClosed := false, result := none } ∧
      (0 : Nat) = acceptsOk ([.listenOk, .dialOk] ++ [.acceptFail (.other 1)]) :=
  ⟨by decide, by decide,
   (accept_failure_spawns_no_relay ⟨false, 0⟩ [.listenOk, .dialOk]
      { pc := .accept, err := none, remote := some ⟨false⟩, pool := 0, wg := 0,
        relays := [], serverClosed := false, result := none }
      { pc := .wgWait, err := none, remote := some ⟨true⟩, pool := 0, wg := 0,
        relays := [], serverClosed := false, result := none }
      (.acceptFail (.other 1)) (by decide) (by decide)).2.2.1⟩

/-! ## NetTee: the loop test (C4) -/

/-- In single-shot mode (no `-k`, no `-n`) no relay exists before the first
accept and at most one ever does. -/
theorem singleShot_relays {f : Flags} (hf : f.keepListening = false ∧
    f.maxConcurrentConnections = 0) {s : State} (h : Reachable f s) :
    s.relays.length ≤ 1 ∧
      (s.pc = .listen ∨ s.pc = .dial ∨ s.pc = .accept → s.relays.length = 0) := by
  obtain ⟨evs, hrun⟩ := h
  refine run_preserves
    (P := fun s => s.relays.length ≤ 1 ∧
      (s.pc = .listen ∨ s.pc = .dial ∨ s.pc = .accept → s.relays.length = 0))
    ?_ evs init s (by simp [init]) hrun
  intro s e s' ⟨h1, h2⟩ hs
  have hl := step_length hs
  cases he : e.isRelayOnly with
  | true =>
    obtain ⟨e1, -, -, -, e5⟩ := step_relayOnly hs he
    rw [e1, e5]
    exact ⟨h1, h2⟩
  | false =>
    have haw := (afterRecv_eq_wgWait f).mpr hf
    rcases step_engine hs he with
      ⟨rfl, a, b, c⟩ | ⟨⟨x, rfl⟩, a, b, c⟩ | ⟨rfl, a, b, c, d⟩ | ⟨⟨x, rfl⟩, a, b, c⟩ |
      ⟨rfl, a, b, r, c, d⟩ | ⟨⟨x, rfl⟩, a, b, c, d⟩ | ⟨rfl, a, b, c⟩ |
      ⟨⟨i, rfl⟩, a, b, c⟩ | ⟨rfl, a, b, c, d⟩
    · have := h2 (Or.inl a)
      simp at hl
      rw [b]
      exact ⟨by omega, fun _ => by omega⟩
    · have := h2 (Or.inl a)
      simp at hl
      rw [b]
      exact ⟨by omega, by simp⟩
    · have := h2 (Or.inr (Or.inl a))
      simp at hl
      rw [b]
      exact ⟨by omega, fun _ => by omega⟩
    · have := h2 (Or.inr (Or.inl a))
      simp at hl
      rw [b]
      exact ⟨by omega, by simp⟩
    · have := h2 (Or.inr (Or.inr a))
      simp at hl
      rw [b]
      exact ⟨by omega, by simp⟩
    · have := h2 (Or.inr (Or.inr a))
      simp at hl
      rw [b]
      exact ⟨by omega, by simp⟩
    · simp at hl
      rw [b, haw]
      exact ⟨by omega, by simp⟩
    · simp at hl
      rw [b, haw]
      exact ⟨by omega, by simp⟩
    · simp at hl
      rw [b]
      exact ⟨by omega, by simp⟩

/-- C4: in every run, when the engine completes the receive from `pool` that
follows a spawn, it leaves the loop exactly when `-k` is off and `-n` is zero
(and then at most one relay ever exists, exactly one after that receive);
whenever `-k` is on or `-n` is at least one it goes back to `net.Dial`, and the
only steps that take it out of the loop are a failed dial or a failed accept. -/
theorem loop_continuation (f : Flags) (evs : List Event) (s s' : State) (e : Event)
    (hrun : run f init evs = some s) (hstep : step f s e = some s') :
    (s.pc = .poolRecv → s'.pc ≠ .poolRecv →
      (s'.pc = .wgWait ↔ (f.keepListening = false ∧ f.maxConcurrentConnections = 0)) ∧
      (f.keepListening = true ∨ 1 ≤ f.maxConcurrentConnections → s'.pc = .dial)) ∧
    (f.keepListening = false ∧ f.maxConcurrentConnections = 0 →
      s'.relays.length ≤ 1 ∧ (s.pc = .poolRecv → s'.pc ≠ .poolRecv → s'.relays.length = 1)) ∧
    (f.keepListening = true ∨ 1 ≤ f.maxConcurrentConnections →
      loopExited s = false → loopExited s' = true →
        (∃ x, e = .dialFail x) ∨ (∃ x, e = .acceptFail x)) := by
  have hrun' : run f init (evs ++ [e]) = some s' := (run_snoc evs e init s').mpr ⟨s, hrun, hstep⟩
  have hT := TraceInv_run hrun
  have hafter : s.pc = .poolRecv → s'.pc ≠ .poolRecv → s'.pc = afterRecv f := by
    intro hpc hmove
    cases he : e.isRelayOnly with
    | true => exact absurd ((step_relayOnly hstep he).1.trans hpc) hmove
    | false =>
      rcases step_engine hstep he with
        ⟨rfl, a, b, c⟩ | ⟨⟨x, rfl⟩, a, b, c⟩ | ⟨rfl, a, b, c, d⟩ | ⟨⟨x, rfl⟩, a, b, c⟩ |
        ⟨rfl, a, b, r, c, d⟩ | ⟨⟨x, rfl⟩, a, b, c, d⟩ | ⟨rfl, a, b, c⟩ |
        ⟨⟨i, rfl⟩, a, b, c⟩ | ⟨rfl, a, b, c, d⟩
      all_goals (first | exact b | (rw [hpc] at a; simp at a))
  refine ⟨?_, ?_, ?_⟩
  · intro hpc hmove
    rw [hafter hpc hmove]
    exact ⟨afterRecv_eq_wgWait f, afterRecv_eq_dial f⟩
  · intro hf
    have hss := singleShot_relays hf ⟨evs ++ [e], hrun'⟩
    refine ⟨hss.1, ?_⟩
    intro hpc hmove
    have hacq := hT.acq
    have hl := step_length hstep
    simp [owed, hpc] at hacq
    split at hl <;> omega
  · intro hf hs0 hs1
    have had := afterRecv_eq_dial f hf
    cases he : e.isRelayOnly with
    | true =>
      have := (step_relayOnly hstep he).1
      simp [loopExited, this] at hs1
      simp [loopExited] at hs0
      rcases hs1 with h | h
      · exact absurd h hs0.1
      · exact absurd h hs0.2
    | false =>
      rcases step_engine hstep he with
        ⟨rfl, a, b, c⟩ | ⟨⟨x, rfl⟩, a, b, c⟩ | ⟨rfl, a, b, c, d⟩ | ⟨⟨x, rfl⟩, a, b, c⟩ |
        ⟨rfl, a, b, r, c, d⟩ | ⟨⟨x, rfl⟩, a, b, c, d⟩ | ⟨rfl, a, b, c⟩ |
        ⟨⟨i, rfl⟩, a, b, c⟩ | ⟨rfl, a, b, c, d⟩
      all_goals (first
        | exact Or.inl ⟨_, rfl⟩
        | exact Or.inr ⟨_, rfl⟩
        | (simp [loopExited, a, b, had] at hs0 hs1))

/-- A run of C4: single-shot mode, the one relay hands its value to the engine. -/
theorem loop_continuation_witness :
    run ⟨false, 0⟩ init [.listenOk, .dialOk, .acceptOk, .fwdDone 0, .revDone 0, .wgCopyWait 0] =
        some { pc := .poolRecv, err := none, remote := none, pool := 0, wg := 1,
               relays := [{ pc := .poolSend, fwdDone := true, revDone := true,
                            conn := ⟨false⟩, remote := ⟨false⟩ }],
               serverClosed := false, result := none } ∧
      step ⟨false, 0⟩
          { pc := .poolRecv, err := none, remote := none, pool := 0, wg := 1,
            relays := [{ pc := .poolSend, fwdDone := true, revDone := true,
                         conn := ⟨false⟩, remote := ⟨false⟩ }],
            serverClosed := false, result := none } (.handoff 0) =
        some { pc := .wgWait, err := none, remote := none, pool := 0, wg := 1,
               relays := [{ pc := .wgDone, fwdDone := true, revDone := true,
                            conn := ⟨false⟩, remote := ⟨false⟩ }],
               serverClosed := false, result := none } ∧
      (Pc.wgWait = Pc.wgWait ↔ (false = false ∧ 0 = 0)) :=
  ⟨by decide, by decide,
   ((loop_continuation ⟨false, 0⟩
      [.listenOk, .dialOk, .acceptOk, .fwdDone 0, .revDone 0, .wgCopyWait 0]
      { pc := .poolRecv, err := none, remote := none, pool := 0, wg := 1,
        relays := [{ pc := .poolSend, fwdDone := true, revDone := true,
                     conn := ⟨false⟩, remote := ⟨false⟩ }],
        serverClosed := false, result := none }
      { pc := .wgWait, err := none, remote := none, pool := 0, wg := 1,
        relays := [{ pc := .wgDone, fwdDone := true, revDone := true,
                     conn := ⟨false⟩, remote := ⟨false⟩ }],
        serverClosed := false, result := none }
      (.handoff 0) (by decide) (by decide)).1 rfl (by decide)).1⟩

end NetTee

/-! ## The copy tasks (C5, C6) -/

theorem Writer.Write_reliable {w : Writer} (h : w.reliable) (p : List Byte) :
    ∃ w', w.Write p = ((p.length, none), w') ∧ w'.written = w.written ++ p ∧ w'.reliable := by
  obtain ⟨written, script⟩ := w
  cases script with
  | nil => exact ⟨_, rfl, rfl, h⟩
  | cons o rest =>
    have ho : o = .ok := h o (by simp)
    subst ho
    refine ⟨_, rfl, rfl, ?_⟩
    intro o ho
    exact h o (by simp [ho])

/-- With a source that delivers `chunks` and then ends, and writers that take
everything, the loop of `io.Copy` ends within one turn more than there are
chunks, having given both writers every chunk in order. -/
theorem copyLoop_chunks : ∀ (chunks : List (List Byte)) (fuel : Nat) (dst sink : Writer)
    (written : Nat), dst.reliable → sink.reliable → chunks.length < fuel →
    ∃ res, copyLoop fuel dst ⟨⟨chunks.map fun c => ⟨c, none⟩⟩, sink⟩ written = some res ∧
      res.written = written + chunks.flatten.length ∧ res.err = none ∧
      res.dst.written = dst.written ++ chunks.flatten ∧
      res.src.w.written = sink.written ++ chunks.flatten
  | [], fuel, dst, sink, written, _, _, hf => by
    obtain ⟨n, rfl⟩ : ∃ n, fuel = n + 1 := ⟨fuel - 1, by simp at hf; omega⟩
    refine ⟨⟨written, none, dst, ⟨⟨[]⟩, sink⟩⟩, ?_, by simp, rfl, by simp, by simp⟩
    simp [copyLoop, teeReader.Read, Reader.Read]
  | c :: cs, fuel, dst, sink, written, hd, hs, hf => by
    obtain ⟨n, rfl⟩ : ∃ n, fuel = n + 1 := ⟨fuel - 1, by simp at hf; omega⟩
    have hn : cs.length < n := by simp at hf; omega
    by_cases hc : 0 < c.length
    · obtain ⟨sink', hw1, hw2, hw3⟩ := Writer.Write_reliable hs c
      obtain ⟨dst', hv1, hv2, hv3⟩ := Writer.Write_reliable hd c
      obtain ⟨res, h1, h2, h3, h4, h5⟩ := copyLoop_chunks cs n dst' sink' (written + c.length)
        hv3 hw3 hn
      refine ⟨res, ?_, ?_, h3, ?_, ?_⟩
      · simp [copyLoop, teeReader.Read, Reader.Read, hc, hw1, hv1]
        exact h1
      · rw [h2]; simp; omega
      · rw [h4, hv2]; simp
      · rw [h5, hw2]; simp
    · have hc0 : c = [] := List.length_eq_zero.mp (by omega)
      subst hc0
      obtain ⟨res, h1, h2, h3, h4, h5⟩ := copyLoop_chunks cs n dst sink written hd hs hn
      refine ⟨res, ?_, ?_, h3, ?_, ?_⟩
      · simp [copyLoop, teeReader.Read, Reader.Read]
        exact h1
      · rw [h2]; simp
      · rw [h4]; simp
      · rw [h5]; simp

/-- C5: for each copy direction of a relay, when the source delivers a finite
sequence of chunks and then ends and every write succeeds in full, the copy
returns without error, and the bytes it has added to its destination and the
bytes it has added to its sink are each the chunks in the order read. -/
theorem copy_tee_fidelity (chunks : List (List Byte)) (src : Reader) (dst sink : Writer)
    (hsrc : src.script = chunks.map fun c => ⟨c, none⟩) (hdst : dst.reliable)
    (hsink : sink.reliable) :
    (∃ res, forwardCopy src dst sink = some res ∧ res.err = none ∧
      res.written = chunks.flatten.length ∧
      res.dst.written = dst.written ++ chunks.flatten ∧
      res.src.w.written = sink.written ++ chunks.flatten) ∧
    (∃ res, reverseCopy src dst sink = some res ∧ res.err = none ∧
      res.written = chunks.flatten.length ∧
      res.dst.written = dst.written ++ chunks.flatten ∧
      res.src.w.written = sink.written ++ chunks.flatten) := by
  obtain ⟨script⟩ := src
  simp only at hsrc
  subst hsrc
  obtain ⟨res, h1, h2, h3, h4, h5⟩ :=
    copyLoop_chunks chunks (chunks.length + 1) dst sink 0 hdst hsink (by omega)
  have h2' : res.written = chunks.flatten.length := by rw [h2]; simp
  constructor
  · exact ⟨res, by simpa [forwardCopy, Copy, TeeReader] using h1, h3, h2', h4, h5⟩
  · exact ⟨res, by simpa [reverseCopy, Copy, TeeReader] using h1, h3, h2', h4, h5⟩

/-- A run of C5: two chunks, an empty destination, a sink that already holds
a byte. -/
theorem copy_tee_fidelity_witness :
    (Reader.mk [⟨[1, 2], none⟩, ⟨[3], none⟩]).script
        = [[1, 2], [3]].map (fun c => ⟨c, none⟩) ∧
      (Writer.mk [] []).reliable ∧ (Writer.mk [9] []).reliable ∧
      ∃ res, forwardCopy ⟨[⟨[1, 2], none⟩, ⟨[3], none⟩]⟩ ⟨[], []⟩ ⟨[9], []⟩ = some res ∧
        res.err = none ∧ res.written = 3 ∧ res.dst.written = [1, 2, 3] ∧
        res.src.w.written = [9, 1, 2, 3] :=
  ⟨rfl, by decide, by decide,
   (copy_tee_fidelity [[1, 2], [3]] ⟨[⟨[1, 2], none⟩, ⟨[3], none⟩]⟩ ⟨[], []⟩ ⟨[9], []⟩ rfl
      (by decide) (by decide)).1⟩

/-- C6 as stated fails: the chunk `[1, 2]` is read from inbound, the write to
the send sink fails having taken nothing, and the forward copy ends with that
error without writing anything to outbound; and when it is the outbound write
that fails, the sink has been given the chunk already, so the sink is written
first. -/
theorem forward_sink_failure_skips_outbound :
    forwardCopy ⟨[⟨[1, 2], none⟩]⟩ ⟨[], []⟩ ⟨[], [.fail 0 (some (.other 1))]⟩ =
        some ⟨0, some (.other 1), ⟨[], []⟩, ⟨⟨[]⟩, ⟨[], []⟩⟩⟩ ∧
      forwardCopy ⟨[⟨[1, 2], none⟩]⟩ ⟨[], [.fail 0 (some (.other 2))]⟩ ⟨[], []⟩ =
        some ⟨0, some (.other 2), ⟨[], []⟩, ⟨⟨[]⟩, ⟨[1, 2], []⟩⟩⟩ := by
  constructor <;> decide

/-- C6, amended: at every turn of the forward copy, whatever has been copied
before, a chunk read from inbound goes to the send sink first and to outbound
after: if the write to the sink fails with an error having taken `k` bytes, the
copy writes those `k` bytes, not the whole chunk, to outbound and ends (with
that error, unless it is `io.EOF`); if the sink takes the chunk and the write to
outbound fails having taken `j` bytes, the copy ends with that error and the
sink holds the whole chunk. -/
theorem forward_sink_first (fuel : Nat) (c : List Byte) (er : GoErr) (rest : List ReadResult)
    (remote sendWriter : Writer) (written : Nat) (hc : c ≠ []) :
    (∀ k e srest, sendWriter.script = .fail k (some e) :: srest → remote.reliable →
      ∃ res, copyLoop (fuel + 1) remote (TeeReader ⟨⟨c, er⟩ :: rest⟩ sendWriter) written
          = some res ∧
        res.err = (if e = .EOF then none else some e) ∧
        res.src.w.written = sendWriter.written ++ c.take k ∧
        res.dst.written = remote.written ++ c.take k ∧
        res.src.r.script = rest) ∧
    (∀ j e drest, sendWriter.reliable → remote.script = .fail j (some e) :: drest →
      ∃ res, copyLoop (fuel + 1) remote (TeeReader ⟨⟨c, er⟩ :: rest⟩ sendWriter) written
          = some res ∧
        res.err = some e ∧
        res.src.w.written = sendWriter.written ++ c ∧
        res.dst.written = remote.written ++ c.take j ∧
        res.src.r.script = rest) := by
  have hlen : 0 < c.length := List.length_pos.mpr hc
  constructor
  · intro k e srest hs hd
    obtain ⟨sw, ss⟩ := sendWriter
    simp only at hs
    subst hs
    have hread : (TeeReader ⟨⟨c, er⟩ :: rest⟩ ⟨sw, .fail k (some e) :: srest⟩).Read =
        (⟨c.take k, some e⟩, ⟨⟨rest⟩, ⟨sw ++ c.take k, srest⟩⟩) := by
      simp [TeeReader, teeReader.Read, Reader.Read, Writer.Write, hlen, List.take_take]
    by_cases hk : 0 < (c.take k).length
    · obtain ⟨dst', hv1, hv2, hv3⟩ := Writer.Write_reliable hd (c.take k)
      refine ⟨⟨written + (c.take k).length, if e = .EOF then none else some e, dst',
        ⟨⟨rest⟩, ⟨sw ++ c.take k, srest⟩⟩⟩, ?_, rfl, rfl, hv2, rfl⟩
      have hk' : 0 < k := by
        simp at hk
        exact hk.1
      simp only [copyLoop, hread, hv1]
      by_cases he : e = .EOF <;> simp [he, hk', hc]
    · have hk0 : c.take k = [] := List.length_eq_zero.mp (by omega)
      refine ⟨⟨written, if e = .EOF then none else some e, remote,
        ⟨⟨rest⟩, ⟨sw ++ c.take k, srest⟩⟩⟩, ?_, rfl, rfl, by simp [hk0], rfl⟩
      simp only [copyLoop, hread]
      by_cases he : e = .EOF <;> simp [he, hk0]
  · intro j e drest hs hd
    obtain ⟨sink', hw1, hw2, hw3⟩ := Writer.Write_reliable hs c
    obtain ⟨dw, ds⟩ := remote
    simp only at hd
    subst hd
    have hread : (TeeReader ⟨⟨c, er⟩ :: rest⟩ sendWriter).Read = (⟨c, er⟩, ⟨⟨rest⟩, sink'⟩) := by
      simp [TeeReader, teeReader.Read, Reader.Read, hw1, hlen]
    refine ⟨⟨written + min j c.length, some e, ⟨dw ++ c.take j, drest⟩, ⟨⟨rest⟩, sink'⟩⟩,
      ?_, rfl, hw2, rfl, rfl⟩
    simp only [copyLoop, hread, Writer.Write]
    have hnot : ¬ c.length < min j c.length := by omega
    simp [hlen, hnot]

/-- A turn of C6, amended: the sink takes one byte of `[1, 2]` and fails. -/
theorem forward_sink_first_witness :
    ([1, 2] : List Byte) ≠ [] ∧
      ∃ res, copyLoop 1 ⟨[], []⟩
          (TeeReader ⟨[⟨[1, 2], none⟩]⟩ ⟨[], [.fail 1 (some (.other 1))]⟩) 0 = some res ∧
        res.err = some (.other 1) ∧ res.src.w.written = [1] ∧ res.dst.written = [1] ∧
        res.src.r.script = [] :=
  ⟨by decide,
   (forward_sink_first 0 [1, 2] none [] ⟨[], []⟩ ⟨[], [.fail 1 (some (.other 1))]⟩ 0
      (by decide)).1 1 (.other 1) [] rfl (by decide)⟩

theorem teeReader.Read_script (t : teeReader) : t.Read.2.r.script = t.r.script.tail := by
  obtain ⟨⟨script⟩, w⟩ := t
  cases script with
  | nil =>
    simp [teeReader.Read, Reader.Read]
  | cons x rest =>
    simp only [teeReader.Read, Reader.Read]
    split
    · split <;> rfl
    · rfl

/-- The loop of `io.Copy` ends within one turn more than the source has results
left to give. -/
theorem copyLoop_returns : ∀ (fuel : Nat) (dst : Writer) (src : teeReader) (written : Nat),
    src.r.script.length < fuel → ∃ res, copyLoop fuel dst src written = some res
  | 0, _, _, _, h => by omega
  | fuel + 1, dst, src, written, h => by
    have hs := teeReader.Read_script src
    have hlen : src.Read.2.r.script.length < fuel ∨ src.r.script = [] := by
      rw [hs]
      cases hsc : src.r.script with
      | nil => exact Or.inr rfl
      | cons x rest =>
        rw [hsc] at h
        simp at h
        simp
        omega
    have hnil : src.r.script = [] → src.Read.1.err = some .EOF ∧ src.Read.1.data = [] := by
      intro h0
      obtain ⟨⟨script⟩, w⟩ := src
      simp only at h0
      subst h0
      simp [teeReader.Read, Reader.Read]
    unfold copyLoop
    generalize src.Read = rd at hlen hnil
    obtain ⟨res, src'⟩ := rd
    simp only at hlen hnil ⊢
    rcases hlen with hlen | h0
    · split
      · generalize dst.Write res.data = wr
        obtain ⟨⟨nw0, ew0⟩, dst'⟩ := wr
        simp only
        repeat' split
        all_goals first | exact ⟨_, rfl⟩ | exact copyLoop_returns fuel _ _ _ hlen
      · split
        · exact ⟨_, rfl⟩
        · exact copyLoop_returns fuel _ _ _ hlen
    · obtain ⟨he, hd⟩ := hnil h0
      simp [he, hd]

/-- The call `io.Copy` always returns. -/
theorem Copy_returns (dst : Writer) (src : teeReader) : ∃ res, Copy dst src = some res :=
  copyLoop_returns _ dst src 0 (by omega)

/-! ## `main`: the connection specification (C9) -/

/-- The pieces `Split` returns hold no colon. -/
theorem Split_no_colon : ∀ (s : GoString), ∀ p ∈ Split s, ':' ∉ p
  | [], p, hp => by
    simp [Split] at hp
    subst hp
    simp
  | c :: cs, p, hp => by
    have ih := Split_no_colon cs
    simp only [Split] at hp
    split at hp
    · simp at hp
      rcases hp with rfl | hp
      · simp
      · exact ih p hp
    · rename_i hc
      cases hsp : Split cs with
      | nil =>
        rw [hsp] at hp
        simp at hp
        subst hp
        simpa using fun h => hc h.symm
      | cons q qs =>
        rw [hsp] at hp
        simp at hp
        rcases hp with rfl | hp
        · have := ih q (by simp [hsp])
          simp
          exact ⟨fun h => hc h.symm, this⟩
        · exact ih p (by simp [hsp, hp])

/-- Joining the pieces `Split` returns gives the string back. -/
theorem Join_Split : ∀ (s : GoString), Join (Split s) = s
  | [] => by simp [Split, Join]
  | c :: cs => by
    have ih := Join_Split cs
    simp only [Split]
    split
    · rename_i hc
      cases hsp : Split cs with
      | nil => rw [hsp] at ih; simp [Join] at ih; subst ih; simp [Split] at hsp
      | cons q qs => rw [hsp] at ih; simp [Join, hc, ih]
    · cases hsp : Split cs with
      | nil => rw [hsp] at ih; simp [Join] at ih; subst ih; simp [Split] at hsp
      | cons q qs =>
        rw [hsp] at ih
        cases qs with
        | nil => simp [Join] at ih ⊢; exact ih
        | cons r rs => simp [Join] at ih ⊢; exact ih

/-- C9: a connection specification that splits on colons into three fields
`p, h, hp` gives `bindAddress = ":" ++ p` and `hostAddress = h ++ ":" ++ hp`;
one that splits into four fields `b, p, h, hp` gives `bindAddress = b ++ ":" ++
p` and the same `hostAddress`; and `NetTee` is then called with these two
addresses (here with no log file named).  With any other number of fields
`main` prints the bad-specification message and exits with status 1, and
`NetTee` is not called. -/
theorem main_connection_spec (spec : GoString) (useAppend : Bool) (osArgs rest : List GoString)
    (opens : GoString → Bool) (netTee : GoString → GoString → GoErr)
    (hos : 1 < osArgs.length) (hrest : rest.length ≤ 2) :
    (∀ p h hp, Split spec = [p, h, hp] →
      addresses spec = some (':' :: p, h ++ ':' :: hp) ∧
      (main useAppend osArgs [spec] opens netTee).head? =
        some (.netTee (':' :: p) (h ++ ':' :: hp) .stdout .stdout)) ∧
    (∀ b p h hp, Split spec = [b, p, h, hp] →
      addresses spec = some (b ++ ':' :: p, h ++ ':' :: hp) ∧
      (main useAppend osArgs [spec] opens netTee).head? =
        some (.netTee (b ++ ':' :: p) (h ++ ':' :: hp) .stdout .stdout)) ∧
    ((Split spec).length ≠ 3 → (Split spec).length ≠ 4 →
      addresses spec = none ∧
      (∃ a, main useAppend osArgs (spec :: rest) opens netTee = [.badSpec a, .exit 1]) ∧
      ∀ a ∈ main useAppend osArgs (spec :: rest) opens netTee, a.isNetTee = false) := by
  refine ⟨?_, ?_, ?_⟩
  · intro p h hp hs
    have ha : addresses spec = some (':' :: p, h ++ ':' :: hp) := by
      simp [addresses, hs, Join]
    exact ⟨ha, by simp [main, ha]⟩
  · intro b p h hp hs
    have ha : addresses spec = some (b ++ ':' :: p, h ++ ':' :: hp) := by
      simp [addresses, hs, Join]
    exact ⟨ha, by simp [main, ha]⟩
  · intro h3 h4
    have ha : addresses spec = none := by
      -- the third arm of the switch: its side conditions are `h3` and `h4`
      unfold addresses
      simp only
    obtain ⟨a, hget⟩ : ∃ a, osArgs[1]? = some a := ⟨osArgs[1], by simp [hos]⟩
    have hm : main useAppend osArgs (spec :: rest) opens netTee = [.badSpec a, .exit 1] := by
      have : ¬ (rest.length + 1 < 1 ∨ rest.length + 1 > 3) := by omega
      simp [main, ha, hget]
      omega
    refine ⟨ha, ⟨a, hm⟩, ?_⟩
    intro x hx
    rw [hm] at hx
    simp at hx
    rcases hx with rfl | rfl <;> rfl

/-- A use of C9: the specification `80:h:81`. -/
theorem main_connection_spec_witness :
    1 < ([['n', 't'], ['8', '0', ':', 'h', ':', '8', '1']] : List GoString).length ∧
      ([] : List GoString).length ≤ 2 ∧
      Split ['8', '0', ':', 'h', ':', '8', '1'] = [['8', '0'], ['h'], ['8', '1']] ∧
      addresses ['8', '0', ':', 'h', ':', '8', '1'] =
        some ([':', '8', '0'], ['h', ':', '8', '1']) :=
  ⟨by decide, by decide, by decide,
   ((main_connection_spec ['8', '0', ':', 'h', ':', '8', '1'] false
      [['n', 't'], ['8', '0', ':', 'h', ':', '8', '1']] [] (fun _ => true) (fun _ _ => none)
      (by decide) (by decide)).1 ['8', '0'] ['h'] ['8', '1'] (by decide)).1⟩

end NT
